import Mathlib

/-!
Verification of the INT4 weight-only-quantization core and the ONNX
graph-pattern utilities of the model-optimization toolkit.

The numeric core is a shallow embedding of `modelopt/onnx/quantization/int4.py`:
numpy float arrays become `List (List ℚ)` (axis 0 = rows = the input-channel
dimension being blocked over), int8 arrays become `List (List Int)`.
Operations (`_pad`, `_depad`, `find_scales`, `rtn`, `dq_tensor`) are
translated function by function from the source.

The graph utilities are a shallow embedding of
`modelopt/onnx/quantization/graph_utils.py` over an explicit graph record
(nodes with string-named input/output tensors, plus the set of constant
tensor names).  Recursive graph walks take an explicit fuel argument; all
results below are stated either for all fuels or at a concrete, generous fuel.
-/

namespace Modelopt

/-! ### Numeric primitives

numpy `max`/`abs`/`clip` on rationals, written as plain conditionals so that
they mirror the numpy semantics on non-NaN inputs. -/

def qmax (a b : ℚ) : ℚ := if a ≤ b then b else a

def qabs (q : ℚ) : ℚ := if q < 0 then -q else q

def imin (a b : Int) : Int := if a ≤ b then a else b

def imax (a b : Int) : Int := if a ≤ b then b else a

/-- numpy `clip(x, lo, hi) = minimum(hi, maximum(x, lo))`. -/
def intClip (lo hi x : Int) : Int := imin hi (imax lo x)

/-- Module constants of `int4.py`. -/
def NUM_BITS : Nat := 4

def INT4_MIN : Int := -(2 ^ (NUM_BITS - 1))

def INT4_MAX : Int := 2 ^ (NUM_BITS - 1) - 1

def INT4_SCALE : ℚ := 7

def BLOCK_SIZE : Nat := 128

/-- `_next_block_size_multiple(x, block_size) = ceil(x / block_size) * block_size`
(for positive `block_size`, on naturals). -/
def _next_block_size_multiple (x B : Nat) : Nat := ((x + B - 1) / B) * B

/-- `_pad`: pad axis 0 of `w` to the next multiple of `block_size` with `z`
(the zero row), exactly when the length is not already a multiple. -/
def _pad {α : Type} (w : List α) (z : α) (B : Nat) : List α :=
  if w.length % B = 0 then w
  else w ++ List.replicate (_next_block_size_multiple w.length B - w.length) z

/-- `_depad`: return `w` unchanged if its axis-0 shape already matches,
otherwise slice axis 0 down to the original length (`w[0:orig_shape[0], ...]`).
Since `_pad` only alters axis 0, comparing axis-0 lengths coincides with the
source's full-shape comparison. -/
def _depad {α : Type} (w : List α) (origLen : Nat) : List α :=
  if w.length = origLen then w else w.take origLen

/-- Column count of a rectangular matrix (numpy `shape[1]`). -/
def cols (m : List (List ℚ)) : Nat := (m.headD []).length

/-- `_pad` specialised to matrices: numpy zero-pads axis 0 with zero rows of
the matrix's column width. -/
def padM (m : List (List ℚ)) (B : Nat) : List (List ℚ) :=
  _pad m (List.replicate (cols m) 0) B

/-- numpy `.T` on a rectangular matrix. -/
def transposeM (m : List (List ℚ)) : List (List ℚ) :=
  (List.range (cols m)).map (fun j => m.map (fun r => r.getD j 0))

/-- Flatten-then-regroup into consecutive chunks of `B` (numpy
`reshape(-1, B)` of a rectangular array, and `reshape(s_shape)` back).
Structural fuel = list length keeps the definition kernel-reducible. -/
def chunksGo {α : Type} (B : Nat) : Nat → List α → List (List α)
  | _, [] => []
  | 0, _ :: _ => []
  | fuel+1, a :: l => ((a :: l).take B) :: chunksGo B fuel ((a :: l).drop B)

def chunks {α : Type} (B : Nat) (l : List α) : List (List α) := chunksGo B l.length l

/-- `abs(block).max()` over one block (blocks are nonempty in use, and all
mapped values are nonnegative, so folding from 0 is exact). -/
def blockAmax (l : List ℚ) : ℚ := (l.map qabs).foldl qmax 0

/-- `find_scales(w, block_size, alpha)`: pad, transpose, take blockwise
amax of `reshape(-1, block_size)`, scale by `alpha / 7.0`, reshape to
`[Cout, Cin/block_size]` and transpose back. -/
def find_scales (w : List (List ℚ)) (B : Nat) (alpha : ℚ) : List (List ℚ) :=
  let wp := padM w B
  let wt := transposeM wp
  let w_amax := (chunks B wt.flatten).map blockAmax
  let s := w_amax.map (fun a => a * alpha / INT4_SCALE)
  let s_last_dim := (wt.headD []).length / B
  transposeM (chunks s_last_dim s)

/-- numpy `rint`: round half to even. -/
def roundHalfEven (q : ℚ) : Int :=
  let f : Int := ⌊q⌋
  let r : ℚ := q - (f : ℚ)
  if r < 1/2 then f
  else if 1/2 < r then f + 1
  else if f % 2 = 0 then f else f + 1

/-- `rtn(w, s, block_size)`: `rint(w / s.repeat(num_blocks, axis=0))`,
clipped to `[INT4_MIN, INT4_MAX]` and cast to an integer container,
then depadded to the original shape. -/
def rtn (w : List (List ℚ)) (s : List (List ℚ)) (B : Nat) : List (List Int) :=
  let wp := padM w B
  let nb := wp.length / s.length
  let sr := (s.map (List.replicate nb)).flatten
  let q := List.zipWith
    (fun rw rs => List.zipWith
      (fun a b => intClip INT4_MIN INT4_MAX (roundHalfEven (a / b))) rw rs)
    wp sr
  _depad q w.length

/-- `dq_tensor(w, s, block_size)`: `w * s.repeat(num_blocks, axis=0)`,
depadded to the original shape. -/
def dq_tensor (w : List (List ℚ)) (s : List (List ℚ)) (B : Nat) : List (List ℚ) :=
  let wp := padM w B
  let nb := wp.length / s.length
  let sr := (s.map (List.replicate nb)).flatten
  let q := List.zipWith (fun rw rs => List.zipWith (fun a b => a * b) rw rs) wp sr
  _depad q w.length

/-- Integer matrix promoted to a rational matrix (numpy int8-to-float cast
that happens implicitly when a quantized tensor is dequantized). -/
def castM (m : List (List Int)) : List (List ℚ) := m.map (fun row => row.map (fun v : Int => (v : ℚ)))

/-! ### Generic list lemmas used by several claims -/

theorem exists_of_mem_zipWith {α β γ : Type} {f : α → β → γ} {z : γ} :
    ∀ {as : List α} {bs : List β}, z ∈ List.zipWith f as bs →
      ∃ a ∈ as, ∃ b ∈ bs, z = f a b := by
  intro as
  induction as with
  | nil => intro bs h; simp at h
  | cons a as ih =>
    intro bs h
    cases bs with
    | nil => simp at h
    | cons b bs =>
      simp only [List.zipWith_cons_cons, List.mem_cons] at h
      rcases h with h | h
      · exact ⟨a, by simp, b, by simp, h⟩
      · rcases ih h with ⟨a', ha', b', hb', hz⟩
        exact ⟨a', by simp [ha'], b', by simp [hb'], hz⟩

theorem mem_of_mem_depad {α : Type} {x : α} {l : List α} {n : Nat}
    (h : x ∈ _depad l n) : x ∈ l := by
  unfold _depad at h
  split at h
  · exact h
  · exact List.mem_of_mem_take h

theorem mem_of_mem_pad {α : Type} {x : α} {l : List α} {z : α} {B : Nat}
    (h : x ∈ _pad l z B) : x ∈ l ∨ x = z := by
  unfold _pad at h
  split at h
  · exact Or.inl h
  · rcases List.mem_append.mp h with h | h
    · exact Or.inl h
    · exact Or.inr (List.eq_of_mem_replicate h)

theorem intClip_le {lo hi x : Int} (h : lo ≤ hi) :
    lo ≤ intClip lo hi x ∧ intClip lo hi x ≤ hi := by
  unfold intClip imin imax
  split_ifs <;> omega

/-! ### Claim C6: pad/depad round trip -/

/-- Claim C6: for every weight tensor `w` (rows of an arbitrary type, hence
any rank at least 1) and every positive block size `B`, depadding the result
of padding `w` on axis 0 back to `w`'s original shape returns exactly `w`. -/
theorem depad_pad_roundtrip {α : Type} (w : List α) (z : α) (B : Nat)
    (hB : 0 < B) : _depad (_pad w z B) w.length = w := by
  unfold _pad _depad
  split
  · simp
  · by_cases hlen : (w ++ List.replicate (_next_block_size_multiple w.length B - w.length) z).length
      = w.length
    · simp only [if_pos hlen]
      have : _next_block_size_multiple w.length B - w.length = 0 := by
        simp only [List.length_append, List.length_replicate] at hlen
        omega
      simp [this]
    · simp only [if_neg hlen]
      simpa using List.take_left w (List.replicate (_next_block_size_multiple w.length B - w.length) z)

/-- Witness for C6 at a concrete tensor and block size. -/
theorem depad_pad_roundtrip_witness :
    0 < 2 ∧ _depad (_pad [(5 : ℚ), 6, 7] 0 2) 3 = [5, 6, 7] :=
  ⟨by norm_num, depad_pad_roundtrip [(5 : ℚ), 6, 7] 0 2 (by norm_num)⟩

/-- Shared bound: every entry of `rtn` output is clipped into
`[INT4_MIN, INT4_MAX]` (no scale hypothesis is needed for the clip bound). -/
theorem rtn_entry_bounds {w s : List (List ℚ)} {B : Nat} :
    ∀ r ∈ rtn w s B, ∀ v ∈ r, INT4_MIN ≤ v ∧ v ≤ INT4_MAX := by
  intro r hr v hv
  unfold rtn at hr
  have hr' := mem_of_mem_depad hr
  rcases exists_of_mem_zipWith hr' with ⟨rw, _, rs, _, hreq⟩
  subst hreq
  rcases exists_of_mem_zipWith hv with ⟨a, _, b, _, hveq⟩
  subst hveq
  exact intClip_le (by decide)

/-! ### Claim C7: rtn boundedness -/

/-- Claim C7: for every weight tensor `w`, scale matrix `s` with (finite)
positive entries, and block size `B`, every element of `rtn w s B` lies in
the inclusive range `[-8, 7]`. -/
theorem rtn_values_in_int4_range (w s : List (List ℚ)) (B : Nat)
    (hs : ∀ r ∈ s, ∀ v ∈ r, 0 < v) :
    ∀ r ∈ rtn w s B, ∀ v ∈ r, -8 ≤ v ∧ v ≤ 7 := by
  intro r hr v hv
  have h := rtn_entry_bounds r hr v hv
  exact ⟨le_trans (by decide : (-8 : Int) ≤ INT4_MIN) h.1,
    le_trans h.2 (by decide : INT4_MAX ≤ 7)⟩

/-- Witness for C7 at a concrete tensor, scale and block size. -/
theorem rtn_values_in_int4_range_witness :
    (∀ r ∈ [[(1 : ℚ)/7]], ∀ v ∈ r, 0 < v) ∧
      ∀ r ∈ rtn [[(1 : ℚ)]] [[(1 : ℚ)/7]] 1, ∀ v ∈ r, -8 ≤ v ∧ v ≤ 7 :=
  ⟨by intro r hr v hv
      simp only [List.mem_singleton] at hr
      subst hr
      simp only [List.mem_singleton] at hv
      subst hv
      norm_num,
   rtn_values_in_int4_range [[(1 : ℚ)]] [[(1 : ℚ)/7]] 1
     (by intro r hr v hv
         simp only [List.mem_singleton] at hr
         subst hr
         simp only [List.mem_singleton] at hv
         subst hv
         norm_num)⟩

/-! ### Claim C2: near-zero blocks

The source applies no zero- or near-zero-scale guard in `rtn`/`dq_tensor`:
a block whose max absolute value is positive but at most `2^-24` still gets
the scale `amax / 7`, and the block quantizes to full-range values, not 0.
The following evaluation lemmas compute the 1×1 case symbolically. -/

theorem pad_singleton (q : ℚ) : padM [[q]] 1 = [[q]] := by
  unfold padM _pad
  norm_num

theorem transposeM_singleton (x : ℚ) : transposeM [[x]] = [[x]] := rfl

theorem chunks_one_singleton {α : Type} (x : α) : chunks 1 [x] = [[x]] := rfl

theorem find_scales_singleton (q : ℚ) :
    find_scales [[q]] 1 1 = [[blockAmax [q] * 1 / INT4_SCALE]] := by
  simp only [find_scales]
  rw [pad_singleton, transposeM_singleton]
  simp only [List.flatten, List.append_nil, chunks_one_singleton, List.map_cons, List.map_nil,
    List.headD_cons, List.length_singleton, Nat.div_one]
  exact transposeM_singleton _

theorem rtn_singleton_step (q s : ℚ) :
    rtn [[q]] [[s]] 1 = [[intClip INT4_MIN INT4_MAX (roundHalfEven (q / s))]] := by
  simp only [rtn]
  rw [pad_singleton]
  simp only [List.length_singleton, Nat.div_one, List.map_cons, List.map_nil,
    List.replicate_one, List.flatten, List.append_nil, List.zipWith_cons_cons,
    List.zipWith_nil_right, _depad, List.length_singleton, if_true]

theorem blockAmax_singleton (q : ℚ) (hq : 0 ≤ q) : blockAmax [q] = q := by
  show qmax 0 (qabs q) = q
  unfold qmax qabs
  rw [if_neg (not_lt.mpr hq), if_pos hq]

theorem roundHalfEven_intCast (n : Int) : roundHalfEven (n : ℚ) = n := by
  unfold roundHalfEven
  rw [Int.floor_intCast]
  norm_num

/-- Any positive 1×1 weight quantizes to exactly 7 with its own computed
scale, regardless of how small it is. -/
theorem rtn_singleton_pos (q : ℚ) (hq : 0 < q) :
    rtn [[q]] (find_scales [[q]] 1 1) 1 = [[7]] := by
  rw [find_scales_singleton, blockAmax_singleton q hq.le]
  have hs : q * 1 / INT4_SCALE = q / 7 := by norm_num [INT4_SCALE]
  rw [hs, rtn_singleton_step]
  have hdiv : q / (q / 7) = ((7 : Int) : ℚ) := by
    field_simp
  rw [hdiv, roundHalfEven_intCast]
  decide

/-- Counterexample to claim C2 as stated: the single block of the 1×1 weight
`[[2 ^ (-24)]]` has max absolute value at most `2^-24`, yet with the scale
computed by `find_scales` the quantized output of `rtn` is 7 — not 0. -/
theorem near_zero_block_not_zero_cex :
    blockAmax [(1 : ℚ)/16777216] ≤ 1/16777216 ∧
    rtn [[(1 : ℚ)/16777216]] (find_scales [[(1 : ℚ)/16777216]] 1 1) 1 = [[7]] ∧
    rtn [[(1 : ℚ)/16777216]] (find_scales [[(1 : ℚ)/16777216]] 1 1) 1 ≠ [[0]] := by
  have hq : (0 : ℚ) < 1/16777216 := by norm_num
  have h := rtn_singleton_pos ((1 : ℚ)/16777216) hq
  refine ⟨?_, h, ?_⟩
  · rw [blockAmax_singleton _ hq.le]
  · rw [h]
    decide

/-- Claim C2, amended: for positive scale entries bounded by `M`, the
quantized values are int4-range-clipped (not in general 0 — see the
counterexample) and dequantizing the quantized tensor yields only finite
values of absolute value at most `8 * M`: no NaN/Inf can arise because no
division by a zero scale happens. -/
theorem dq_of_rtn_values_bounded (w s : List (List ℚ)) (B : Nat) (M : ℚ)
    (hpos : ∀ r ∈ s, ∀ v ∈ r, 0 < v) (hM : ∀ r ∈ s, ∀ v ∈ r, v ≤ M) :
    ∀ r ∈ dq_tensor (castM (rtn w s B)) s B, ∀ u ∈ r, |u| ≤ 8 * M := by
  intro r hr u hu
  unfold dq_tensor at hr
  have hr' := mem_of_mem_depad hr
  rcases exists_of_mem_zipWith hr' with ⟨rw', hrw, rs, hrs, hreq⟩
  subst hreq
  rcases exists_of_mem_zipWith hu with ⟨a, ha, b, hb, hueq⟩
  subst hueq
  -- the scale entry b comes from a row of s, so 0 < b ≤ M
  have hsrow : ∃ srow ∈ s, rs = srow := by
    rcases List.mem_flatten.mp hrs with ⟨l, hl, hin⟩
    rcases List.mem_map.mp hl with ⟨srow, hsrow, hleq⟩
    subst hleq
    exact ⟨srow, hsrow, List.eq_of_mem_replicate hin⟩
  rcases hsrow with ⟨srow, hsrowmem, hrseq⟩
  rw [hrseq] at hb
  have hbpos : 0 < b := hpos srow hsrowmem b hb
  have hbM : b ≤ M := hM srow hsrowmem b hb
  -- the weight entry a is either a cast quantized value in [-8, 7] or a pad zero
  have haabs : |a| ≤ 8 := by
    rcases mem_of_mem_pad hrw with hmem | hz
    · unfold castM at hmem
      rcases List.mem_map.mp hmem with ⟨introw, hintrow, hroweq⟩
      rw [← hroweq] at ha
      rcases List.mem_map.mp ha with ⟨vq, hvmem, hveq⟩
      subst hveq
      have hvb := rtn_entry_bounds introw hintrow vq hvmem
      have h1 : (INT4_MIN : ℚ) ≤ (vq : ℚ) := by exact_mod_cast hvb.1
      have h2 : ((vq : ℚ)) ≤ (INT4_MAX : ℚ) := by exact_mod_cast hvb.2
      have hmin : ((INT4_MIN : Int) : ℚ) = -8 := by norm_num [INT4_MIN, NUM_BITS]
      have hmax : ((INT4_MAX : Int) : ℚ) = 7 := by norm_num [INT4_MAX, NUM_BITS]
      rw [hmin] at h1
      rw [hmax] at h2
      rw [abs_le]
      constructor <;> linarith
    · subst hz
      have : a ∈ List.replicate (cols (castM (rtn w s B))) (0 : ℚ) := ha
      have := List.eq_of_mem_replicate this
      subst this
      norm_num
  have hM0 : 0 < M := lt_of_lt_of_le hbpos hbM
  calc |a * b| = |a| * |b| := abs_mul a b
    _ = |a| * b := by rw [abs_of_pos hbpos]
    _ ≤ 8 * b := by
        apply mul_le_mul_of_nonneg_right haabs hbpos.le
    _ ≤ 8 * M := by
        apply mul_le_mul_of_nonneg_left hbM (by norm_num)

/-- Witness for the amended C2 theorem at a concrete tensor and scale. -/
theorem dq_of_rtn_values_bounded_witness :
    ((∀ r ∈ [[(1 : ℚ)/7]], ∀ v ∈ r, 0 < v) ∧ (∀ r ∈ [[(1 : ℚ)/7]], ∀ v ∈ r, v ≤ 1/7)) ∧
      ∀ r ∈ dq_tensor (castM (rtn [[(1 : ℚ)]] [[(1 : ℚ)/7]] 1)) [[(1 : ℚ)/7]] 1,
        ∀ u ∈ r, |u| ≤ 8 * (1/7) := by
  have hpos : ∀ r ∈ [[(1 : ℚ)/7]], ∀ v ∈ r, 0 < v := by
    intro r hr v hv
    simp only [List.mem_singleton] at hr
    subst hr
    simp only [List.mem_singleton] at hv
    subst hv
    norm_num
  have hM : ∀ r ∈ [[(1 : ℚ)/7]], ∀ v ∈ r, v ≤ 1/7 := by
    intro r hr v hv
    simp only [List.mem_singleton] at hr
    subst hr
    simp only [List.mem_singleton] at hv
    subst hv
    norm_num
  exact ⟨⟨hpos, hM⟩, dq_of_rtn_values_bounded [[(1 : ℚ)]] [[(1 : ℚ)/7]] 1 (1/7) hpos hM⟩

/-! ### AWQ-Lite closed-form scale (claims C5 and C10)

`get_scale(x_max, w_max, alpha)` of `int4.py` computes, elementwise over the
input-channel axis,
`clip(x_max ** alpha / (w_max ** (1 - alpha) + tiny), 1e-4, 1e4)`
and then divides the whole array by `sqrt(scales.max() * scales.min())`.
Powers with real exponents and the square root force the model into ℝ;
`eps` stands for `np.finfo(w_max.dtype).tiny`, kept as a parameter. -/

/-- numpy `clip` on reals. -/
noncomputable def clipR (lo hi v : ℝ) : ℝ := min hi (max lo v)

/-- numpy `.max()` of a (nonempty, in use) array. -/
noncomputable def listMax : List ℝ → ℝ
  | [] => 0
  | h :: t => t.foldl max h

/-- numpy `.min()` of a (nonempty, in use) array. -/
noncomputable def listMin : List ℝ → ℝ
  | [] => 0
  | h :: t => t.foldl min h

/-- `get_scale` from `int4.py`, elementwise over equally long arrays. -/
noncomputable def get_scale (x_max w_max : List ℝ) (alpha eps : ℝ) : List ℝ :=
  let scales := List.zipWith
    (fun x w => clipR (1/10000) 10000 (x ^ alpha / (w ^ (1 - alpha) + eps))) x_max w_max
  scales.map (fun v => v / Real.sqrt (listMax scales * listMin scales))

/-- The closed form exactly as the claim words it: the clipped quotient array
divided by the square root of (max times min) of the clipped values. -/
noncomputable def get_scale_claim_form (x_max w_max : List ℝ) (alpha eps : ℝ) : List ℝ :=
  let clipped := List.zipWith
    (fun x w => clipR (1/10000) 10000 (x ^ alpha / (w ^ (1 - alpha) + eps))) x_max w_max
  clipped.map (fun v => v / Real.sqrt (listMax clipped * listMin clipped))

theorem zipWith_congr_left {α β γ : Type} (f : α → β → γ) (x x' : List α) (w : List β)
    (hlen : x.length = x'.length) (hf : ∀ a a' b, f a b = f a' b) :
    List.zipWith f x w = List.zipWith f x' w := by
  induction x generalizing x' w with
  | nil =>
    cases x' with
    | nil => rfl
    | cons a' t' => simp at hlen
  | cons a t ih =>
    cases x' with
    | nil => simp at hlen
    | cons a' t' =>
      cases w with
      | nil => rfl
      | cons b u =>
        simp only [List.zipWith_cons_cons]
        simp only [List.length_cons, Nat.succ_inj] at hlen
        rw [hf a a' b, ih t' u hlen]

/-- Claim C5: `get_scale` equals the claim's closed form, and at the endpoint
`alpha = 0` the result depends only on the weight magnitudes, while at
`alpha = 1` it depends only on the activation magnitudes. -/
theorem get_scale_closed_form_and_endpoints (x x' w w' : List ℝ) (eps : ℝ) (n : Nat)
    (hx : x.length = n) (hx' : x'.length = n) (hw : w.length = n) (hw' : w'.length = n) :
    (∀ a : ℝ, get_scale x w a eps = get_scale_claim_form x w a eps) ∧
    get_scale x w 0 eps = get_scale x' w 0 eps ∧
    get_scale x w 1 eps = get_scale x w' 1 eps := by
  refine ⟨fun a => rfl, ?_, ?_⟩
  · have hzip : List.zipWith
        (fun xi wi => clipR (1/10000) 10000 (xi ^ (0 : ℝ) / (wi ^ (1 - (0 : ℝ)) + eps))) x w
      = List.zipWith
        (fun xi wi => clipR (1/10000) 10000 (xi ^ (0 : ℝ) / (wi ^ (1 - (0 : ℝ)) + eps))) x' w := by
      apply zipWith_congr_left _ _ _ _ (hx.trans hx'.symm)
      intro a a' b
      rw [Real.rpow_zero, Real.rpow_zero]
    simp only [get_scale]
    rw [hzip]
  · have hzip : List.zipWith
        (fun xi wi => clipR (1/10000) 10000 (xi ^ (1 : ℝ) / (wi ^ (1 - (1 : ℝ)) + eps))) x w
      = List.zipWith
        (fun xi wi => clipR (1/10000) 10000 (xi ^ (1 : ℝ) / (wi ^ (1 - (1 : ℝ)) + eps))) x w' := by
      have hswap : ∀ u v : List ℝ,
          List.zipWith
            (fun xi wi => clipR (1/10000) 10000 (xi ^ (1 : ℝ) / (wi ^ (1 - (1 : ℝ)) + eps))) u v
          = List.zipWith
            (fun wi xi => clipR (1/10000) 10000 (xi ^ (1 : ℝ) / (wi ^ (1 - (1 : ℝ)) + eps))) v u := by
        intro u v
        rw [List.zipWith_comm]
      rw [hswap x w, hswap x w']
      apply zipWith_congr_left _ _ _ _ (hw.trans hw'.symm)
      intro b b' a
      norm_num
    simp only [get_scale]
    rw [hzip]

/-- Witness for C5 at concrete arrays. -/
theorem get_scale_closed_form_and_endpoints_witness :
    (([(1 : ℝ)].length = 1 ∧ [(2 : ℝ)].length = 1) ∧
     ([(3 : ℝ)].length = 1 ∧ [(4 : ℝ)].length = 1)) ∧
    ((∀ a : ℝ, get_scale [(1 : ℝ)] [(3 : ℝ)] a 1 = get_scale_claim_form [(1 : ℝ)] [(3 : ℝ)] a 1) ∧
     get_scale [(1 : ℝ)] [(3 : ℝ)] 0 1 = get_scale [(2 : ℝ)] [(3 : ℝ)] 0 1 ∧
     get_scale [(1 : ℝ)] [(3 : ℝ)] 1 1 = get_scale [(1 : ℝ)] [(4 : ℝ)] 1 1) :=
  ⟨⟨⟨rfl, rfl⟩, ⟨rfl, rfl⟩⟩,
   get_scale_closed_form_and_endpoints [(1 : ℝ)] [(2 : ℝ)] [(3 : ℝ)] [(4 : ℝ)] 1 1
     rfl rfl rfl rfl⟩

/-! ### Claim C10: the normalization makes max times min equal one -/

theorem foldl_max_mem (a : ℝ) (t : List ℝ) : t.foldl max a ∈ a :: t := by
  induction t generalizing a with
  | nil => simp
  | cons b u ih =>
    have h := ih (max a b)
    simp only [List.foldl_cons]
    rcases List.mem_cons.mp h with h | h
    · rcases max_choice a b with hm | hm
      · exact List.mem_cons.mpr (Or.inl (h.trans hm))
      · exact List.mem_cons.mpr (Or.inr (List.mem_cons.mpr (Or.inl (h.trans hm))))
    · exact List.mem_cons.mpr (Or.inr (List.mem_cons.mpr (Or.inr h)))

theorem foldl_min_mem (a : ℝ) (t : List ℝ) : t.foldl min a ∈ a :: t := by
  induction t generalizing a with
  | nil => simp
  | cons b u ih =>
    have h := ih (min a b)
    simp only [List.foldl_cons]
    rcases List.mem_cons.mp h with h | h
    · rcases min_choice a b with hm | hm
      · exact List.mem_cons.mpr (Or.inl (h.trans hm))
      · exact List.mem_cons.mpr (Or.inr (List.mem_cons.mpr (Or.inl (h.trans hm))))
    · exact List.mem_cons.mpr (Or.inr (List.mem_cons.mpr (Or.inr h)))

theorem listMax_mem {l : List ℝ} (h : l ≠ []) : listMax l ∈ l := by
  cases l with
  | nil => exact absurd rfl h
  | cons a t => exact foldl_max_mem a t

theorem listMin_mem {l : List ℝ} (h : l ≠ []) : listMin l ∈ l := by
  cases l with
  | nil => exact absurd rfl h
  | cons a t => exact foldl_min_mem a t

theorem foldl_max_div (c : ℝ) (hc : 0 < c) (t : List ℝ) :
    ∀ a : ℝ, (t.map (fun v => v / c)).foldl max (a / c) = (t.foldl max a) / c := by
  induction t with
  | nil => intro a; rfl
  | cons b u ih =>
    intro a
    simp only [List.map_cons, List.foldl_cons]
    rw [max_div_div_right hc.le, ih]

theorem foldl_min_div (c : ℝ) (hc : 0 < c) (t : List ℝ) :
    ∀ a : ℝ, (t.map (fun v => v / c)).foldl min (a / c) = (t.foldl min a) / c := by
  induction t with
  | nil => intro a; rfl
  | cons b u ih =>
    intro a
    simp only [List.map_cons, List.foldl_cons]
    rw [min_div_div_right hc.le, ih]

theorem listMax_map_div {l : List ℝ} {c : ℝ} (hc : 0 < c) :
    listMax (l.map (fun v => v / c)) = listMax l / c := by
  cases l with
  | nil => simp [listMax]
  | cons a t => exact foldl_max_div c hc t a

theorem listMin_map_div {l : List ℝ} {c : ℝ} (hc : 0 < c) :
    listMin (l.map (fun v => v / c)) = listMin l / c := by
  cases l with
  | nil => simp [listMin]
  | cons a t => exact foldl_min_div c hc t a

theorem clipR_bounds {lo hi v : ℝ} (h : lo ≤ hi) : lo ≤ clipR lo hi v ∧ clipR lo hi v ≤ hi := by
  unfold clipR
  constructor
  · exact le_min h (le_max_left lo v)
  · exact min_le_left hi _

/-- Claim C10: for positive inputs and any alpha, the normalization of
`get_scale` by the geometric mean of the extremes makes
`max(scales) * min(scales) = 1` in exact arithmetic. -/
theorem get_scale_max_mul_min_eq_one (x w : List ℝ) (alpha eps : ℝ)
    (hx : x ≠ []) (hw : w ≠ []) (hxpos : ∀ v ∈ x, 0 < v) (hwpos : ∀ v ∈ w, 0 < v) :
    listMax (get_scale x w alpha eps) * listMin (get_scale x w alpha eps) = 1 := by
  rcases List.exists_cons_of_ne_nil hx with ⟨x0, xt, rfl⟩
  rcases List.exists_cons_of_ne_nil hw with ⟨w0, wt, rfl⟩
  set f : ℝ → ℝ → ℝ :=
    fun xi wi => clipR (1/10000) 10000 (xi ^ alpha / (wi ^ (1 - alpha) + eps)) with hf
  set raw := List.zipWith f (x0 :: xt) (w0 :: wt) with hraw
  have hrawne : raw ≠ [] := by
    rw [hraw]
    simp
  have hbounds : ∀ v ∈ raw, 1/10000 ≤ v ∧ v ≤ 10000 := by
    intro v hv
    rcases exists_of_mem_zipWith hv with ⟨a, _, b, _, hveq⟩
    subst hveq
    exact clipR_bounds (by norm_num)
  have hMlb : 1/10000 ≤ listMax raw := (hbounds _ (listMax_mem hrawne)).1
  have hmlb : 1/10000 ≤ listMin raw := (hbounds _ (listMin_mem hrawne)).1
  have hMpos : 0 < listMax raw := lt_of_lt_of_le (by norm_num) hMlb
  have hmpos : 0 < listMin raw := lt_of_lt_of_le (by norm_num) hmlb
  have hprodpos : 0 < listMax raw * listMin raw := mul_pos hMpos hmpos
  have hs : 0 < Real.sqrt (listMax raw * listMin raw) := Real.sqrt_pos.mpr hprodpos
  have hgs : get_scale (x0 :: xt) (w0 :: wt) alpha eps
      = raw.map (fun v => v / Real.sqrt (listMax raw * listMin raw)) := rfl
  rw [hgs, listMax_map_div hs, listMin_map_div hs, div_mul_div_comm,
    Real.mul_self_sqrt hprodpos.le, div_self (ne_of_gt hprodpos)]

/-- Witness for C10 at concrete positive arrays. -/
theorem get_scale_max_mul_min_eq_one_witness :
    (([(1 : ℝ)] ≠ ([] : List ℝ)) ∧ ([(2 : ℝ)] ≠ ([] : List ℝ)) ∧
     (∀ v ∈ [(1 : ℝ)], 0 < v) ∧ (∀ v ∈ [(2 : ℝ)], 0 < v)) ∧
    listMax (get_scale [(1 : ℝ)] [(2 : ℝ)] (1/2) 1) *
      listMin (get_scale [(1 : ℝ)] [(2 : ℝ)] (1/2) 1) = 1 := by
  have h1 : ([(1 : ℝ)] : List ℝ) ≠ [] := by simp
  have h2 : ([(2 : ℝ)] : List ℝ) ≠ [] := by simp
  have h3 : ∀ v ∈ [(1 : ℝ)], 0 < v := by
    intro v hv
    simp only [List.mem_singleton] at hv
    subst hv
    norm_num
  have h4 : ∀ v ∈ [(2 : ℝ)], 0 < v := by
    intro v hv
    simp only [List.mem_singleton] at hv
    subst hv
    norm_num
  exact ⟨⟨h1, h2, h3, h4⟩,
    get_scale_max_mul_min_eq_one [(1 : ℝ)] [(2 : ℝ)] (1/2) 1 h1 h2 h3 h4⟩

/-! ### Graph model for `graph_utils.py`

A graph-surgeon graph: nodes carry ordered input/output tensor names, and
`consts` lists the tensor names that are `gs.Constant` (initializers).  A
tensor's producer is the node listing it among its outputs; its consumers
are the nodes listing it among their inputs.  Recursive walks over the graph
carry an explicit fuel; claims are stated for all fuels or at a concrete,
generous fuel on concrete graphs. -/

structure GNode where
  name : String
  op : String
  inputs : List String
  outputs : List String
deriving DecidableEq

structure GGraph where
  nodes : List GNode
  consts : List String
deriving DecidableEq

def defaultGNode : GNode := ⟨"", "", [], []⟩

/-- `tensor.inputs[0]` of graph-surgeon: the producer node of a tensor. -/
def producerOf (g : GGraph) (t : String) : Option GNode :=
  g.nodes.find? (fun n => n.outputs.contains t)

/-- `tensor.outputs` of graph-surgeon: consumer nodes of a tensor. -/
def consumersOf (g : GGraph) (t : String) : List GNode :=
  g.nodes.filter (fun n => n.inputs.contains t)

/-- Modelled from the spec: `get_parent_nodes` lives in `modelopt.onnx.utils`,
which is not among the provided sources; parents are the producers of the
node's input tensors. -/
def get_parent_nodes (g : GGraph) (n : GNode) : List GNode :=
  n.inputs.filterMap (producerOf g)

/-- Modelled from the spec: `get_child_nodes` lives in `modelopt.onnx.utils`,
which is not among the provided sources; children are the consumers of the
node's output tensors. -/
def get_child_nodes (g : GGraph) (n : GNode) : List GNode :=
  (n.outputs.map (consumersOf g)).flatten

/-- `is_const_input`: an initializer, or produced by `Constant`/`Identity`,
or a `Squeeze`/`Unsqueeze` whose first input is recursively constant, or an
`Exp` whose producer chain is a const-fed `Clip`.  Where the source would
raise an `IndexError` on a missing producer, the model returns `false`. -/
def is_const_input (g : GGraph) : Nat → String → Bool
  | 0, _ => false
  | fuel+1, t =>
    if g.consts.contains t then true
    else
      match producerOf g t with
      | none => false
      | some p =>
        ((p.op == "Constant") || (p.op == "Identity"))
        || (((p.op == "Squeeze") || (p.op == "Unsqueeze"))
              && is_const_input g fuel (p.inputs.headD ""))
        || ((p.op == "Exp")
              && match producerOf g (p.inputs.headD "") with
                 | some clipNode =>
                     (clipNode.op == "Clip")
                       && clipNode.inputs.any (fun t2 => is_const_input g fuel t2)
                 | none => false)

/-- `has_const_input`: whether any input tensor is constant. -/
def has_const_input (g : GGraph) (fuel : Nat) (n : GNode) : Bool :=
  n.inputs.any (fun t => is_const_input g fuel t)

/-- Synthesized type of a node: an `Add`/`Mul` with a constant input is seen
as `BiasAdd`/`ConstMul`. -/
def node_type_of (g : GGraph) (cf : Nat) (node : GNode) : String :=
  if node.op == "Add" && has_const_input g cf node then "BiasAdd"
  else if node.op == "Mul" && has_const_input g cf node then "ConstMul"
  else node.op

/-- `is_match = (node_type == path_type[0]) or (node.op == path_type[0])`. -/
def matches_head (g : GGraph) (cf : Nat) (node : GNode) (head : String) : Bool :=
  (node_type_of g cf node == head) || (node.op == head)

/-- `is_wild_match = node_type in wild_card_types`. -/
def wild_matches (g : GGraph) (cf : Nat) (node : GNode) (wild : List String) : Bool :=
  wild.contains (node_type_of g cf node)

/-- The two optional-consumable path tokens. -/
def optional_head (head : String) : Bool := ["BiasAdd", "ConstMul"].contains head

/-- `has_path_type` of `graph_utils.py`, with the Python accumulator argument
(`path_nodes`) made explicit: the result is the returned boolean together
with the full contents of the accumulator after the call (Python mutates the
passed-in list in place; note that on failure the partially matched nodes
stay appended, exactly as in the source).  `cf` is the fuel used by the
`has_const_input` checks, `fuel` bounds the recursion depth. -/
def has_path_type (g : GGraph) (cf : Nat) :
    Nat → GNode → List String → Bool → List String → List GNode → Bool × List GNode
  | 0, _, _, _, _, acc => (false, acc)
  | fuel+1, node, path_type, is_forward, wild_card_types, acc =>
    match path_type with
    | [] => (true, acc)
    | head :: rest =>
      let is_match := matches_head g cf node head
      let is_wild_match := wild_matches g cf node wild_card_types
      if !is_match && !is_wild_match && !(optional_head head) then
        (false, acc)
      else
        let acc1 := if is_match then acc ++ [node] else acc
        let next_path := if is_match || optional_head head then rest else head :: rest
        if !is_match && !is_wild_match then
          has_path_type g cf fuel node next_path is_forward wild_card_types acc1
        else
          let next_level := if is_forward then get_child_nodes g node else get_parent_nodes g node
          let results := next_level.map
            (fun nx => has_path_type g cf fuel nx next_path is_forward wild_card_types [])
          match results.find? (fun r => r.1) with
          | some r => (true, acc1 ++ r.2)
          | none => (next_path.isEmpty, acc1)

/-! ### Claim C8: pattern matcher determinism -/

/-- Claim C8: `has_path_type` is a pure function of the graph, start node,
path type, direction and wildcard set: whatever the accumulator already
contains (for example, state left in Python's shared mutable default
`path_nodes=[]` by earlier invocations), the returned boolean is the same
and the call appends exactly the matched-node sequence of a fresh run —
prior accumulator state never affects the outcome. -/
theorem has_path_type_deterministic (g : GGraph) (cf : Nat) :
    ∀ (fuel : Nat) (node : GNode) (pt : List String) (fwd : Bool) (wild : List String)
      (acc : List GNode),
      has_path_type g cf fuel node pt fwd wild acc
        = ((has_path_type g cf fuel node pt fwd wild []).1,
           acc ++ (has_path_type g cf fuel node pt fwd wild []).2) := by
  intro fuel
  induction fuel with
  | zero =>
    intro node pt fwd wild acc
    simp [has_path_type]
  | succ n ih =>
    intro node pt fwd wild acc
    cases pt with
    | nil => simp [has_path_type]
    | cons head rest =>
      by_cases hm : matches_head g cf node head = true
      · -- matched: append node, explore next level
        simp only [has_path_type, hm]
        simp only [Bool.not_true, Bool.false_and, Bool.and_false, if_false, Bool.false_or,
          Bool.true_or, if_true, Bool.or_true, Bool.true_and]
        cases hfind : (List.map
            (fun nx => has_path_type g cf n nx rest fwd wild [])
            (if fwd then get_child_nodes g node else get_parent_nodes g node)).find?
            (fun r => r.1) with
        | none => simp [hfind]
        | some r => simp [hfind]
      · rw [Bool.not_eq_true] at hm
        by_cases hw : wild_matches g cf node wild = true
        · -- wildcard: do not consume the node, explore the next level
          simp only [has_path_type, hm, hw]
          simp only [Bool.not_true, Bool.not_false, Bool.true_and, Bool.and_false,
            Bool.false_and, Bool.false_or, if_false]
          cases hfind : (List.map
              (fun nx => has_path_type g cf n nx
                (if optional_head head then rest else head :: rest) fwd wild [])
              (if fwd then get_child_nodes g node else get_parent_nodes g node)).find?
              (fun r => r.1) with
          | none => simp [hfind]
          | some r => simp [hfind]
        · rw [Bool.not_eq_true] at hw
          by_cases ho : optional_head head = true
          · -- optional head skipped without consuming the node
            simp only [has_path_type, hm, hw, ho]
            simp only [Bool.not_false, Bool.true_and, Bool.not_true, Bool.and_false, if_false,
              Bool.false_or, if_true, Bool.or_true, Bool.or_false]
            exact ih node rest fwd wild acc
          · rw [Bool.not_eq_true] at ho
            simp [has_path_type, hm, hw, ho]

/-! ### Residual-add classification (claim C3) -/

/-- `_get_backbone` of `get_fusible_backbone`: depth-first search through
non-constant inputs for a `Conv` node (first hit wins, in input order).
Where the source would raise on a producer-less variable, the model skips. -/
def _get_backbone (g : GGraph) : Nat → GNode → Option GNode
  | 0, _ => none
  | fuel+1, root =>
    if root.op == "Conv" then some root
    else
      (root.inputs.map (fun t =>
        if g.consts.contains t then none
        else match producerOf g t with
          | none => none
          | some p => _get_backbone g fuel p)).findSome? id

/-- The four fusible linear path types of `get_fusible_backbone`. -/
def fusible_linear_path_types : List (List String) :=
  [["BiasAdd", "ConstMul", "Conv"],
   ["Relu", "BiasAdd", "ConstMul", "Conv"],
   ["BatchNormalization", "BiasAdd", "Conv"],
   ["Relu", "BatchNormalization", "BiasAdd", "Conv"]]

/-- `get_fusible_backbone`: if any fusible pattern matches backward from the
node (with no wildcards), return `_get_backbone` of the node. -/
def get_fusible_backbone (g : GGraph) (cf fuel : Nat) (node : GNode) : Option GNode :=
  if fusible_linear_path_types.any
      (fun pt => (has_path_type g cf fuel node pt false [] []).1)
  then _get_backbone g fuel node
  else none

/-- Modelled from the spec: minimal backward distance (number of producer
edges) from node `n` to the node named `target`; `find_lowest_common_ancestor`
lives in `modelopt.onnx.utils`, which is not among the provided sources. -/
def distTo (g : GGraph) : Nat → GNode → String → Option Nat
  | 0, n, target => if n.name == target then some 0 else none
  | fuel+1, n, target =>
    if n.name == target then some 0
    else
      match ((get_parent_nodes g n).filterMap (fun p => distTo g fuel p target)).min? with
      | some d => some (d + 1)
      | none => none

/-- Modelled from the spec: `find_lowest_common_ancestor` (from
`modelopt.onnx.utils`, not among the provided sources) returns the lowest
common ancestor of the two producer chains together with the path lengths
`d1`, `d2` from each node to it.  Modelled as: among all graph nodes that are
ancestors of both, pick the one minimizing `d1 + d2` (first in node order on
ties). -/
def find_lowest_common_ancestor (g : GGraph) (fuel : Nat) (n1 n2 : GNode) :
    Option String × Nat × Nat :=
  let cands := g.nodes.filterMap (fun a =>
    match distTo g fuel n1 a.name, distTo g fuel n2 a.name with
    | some d1, some d2 => some (a.name, d1, d2)
    | _, _ => none)
  match cands.foldl (fun best c =>
      match best with
      | none => some c
      | some b => if c.2.1 + c.2.2 < b.2.1 + b.2.2 then some c else some b) none with
  | some b => (some b.1, b.2.1, b.2.2)
  | none => (none, 0, 0)

/-- Per-`Add`-node body of `build_non_residual_input_map`: `None` for Adds
with a constant or producer-less input; otherwise compare the fusible
backbones of the two producers and, when both exist and differ, pick the
input with the longer path to the lowest common ancestor (`d1 > d2` picks
input 0, otherwise — including the `d1 == d2` tie — input 1). -/
def nonResidualInput (g : GGraph) (cf fuel : Nat) (node : GNode) : Option String :=
  if has_const_input g cf node
      || (producerOf g (node.inputs.getD 0 "")).isNone
      || (producerOf g (node.inputs.getD 1 "")).isNone then
    none
  else
    match producerOf g (node.inputs.getD 0 ""), producerOf g (node.inputs.getD 1 "") with
    | some p1, some p2 =>
      match get_fusible_backbone g cf fuel p1, get_fusible_backbone g cf fuel p2 with
      | some b1, some b2 =>
        if b1 = b2 then none
        else if (find_lowest_common_ancestor g fuel p1 p2).2.1 >
                (find_lowest_common_ancestor g fuel p1 p2).2.2
          then some (node.inputs.getD 0 "")
          else some (node.inputs.getD 1 "")
      | some _, none => some (node.inputs.getD 0 "")
      | none, some _ => some (node.inputs.getD 1 "")
      | none, none => none
    | _, _ => none

/-- `build_non_residual_input_map`: Add-node name to non-residual input name. -/
def build_non_residual_input_map (g : GGraph) (cf fuel : Nat) :
    List (String × Option String) :=
  g.nodes.filterMap (fun node =>
    if node.op == "Add" then some (node.name, nonResidualInput g cf fuel node) else none)

/-- A concrete graph in which an `Add` is fed by two distinct `Conv`
backbones whose paths to the lowest common ancestor have equal length. -/
def convA : GNode := ⟨"convA", "Conv", ["x", "wA"], ["t"]⟩

def conv1 : GNode := ⟨"conv1", "Conv", ["t", "w1"], ["u1"]⟩

def conv2 : GNode := ⟨"conv2", "Conv", ["t", "w2"], ["u2"]⟩

def add0 : GNode := ⟨"add0", "Add", ["u1", "u2"], ["y"]⟩

def tieG : GGraph := ⟨[convA, conv1, conv2, add0], ["wA", "w1", "w2"]⟩

/-- Counterexample to claim C3 as stated: in `tieG` the two inputs of `add0`
trace to the distinct fusible backbones `conv1` and `conv2` with equal path
lengths to the lowest common ancestor (`d1 = d2 = 1`), yet
`build_non_residual_input_map` selects input 1 (`u2`), not input 0 (`u1`). -/
theorem non_residual_tie_selects_input1_cex :
    get_fusible_backbone tieG 4 8 conv1 = some conv1 ∧
    get_fusible_backbone tieG 4 8 conv2 = some conv2 ∧
    conv1 ≠ conv2 ∧
    find_lowest_common_ancestor tieG 8 conv1 conv2 = (some "convA", 1, 1) ∧
    build_non_residual_input_map tieG 4 8 = [("add0", some "u2")] ∧
    ("add0", some "u1") ∉ build_non_residual_input_map tieG 4 8 := by
  decide

/-- Claim C3, amended: for every `Add` node whose two inputs have producers
with distinct fusible backbones, the map selects input 0 exactly when its
path to the lowest common ancestor is strictly longer (`d1 > d2`); when
`d1 ≤ d2` — including the `d1 == d2` tie — it selects input 1; identical
backbones map the Add to `None`. -/
theorem build_non_residual_input_map_policy (g : GGraph) (cf fuel : Nat) (node : GNode)
    (hmem : node ∈ g.nodes) (hop : node.op = "Add")
    (hconst : has_const_input g cf node = false)
    (p1 p2 : GNode)
    (hp1 : producerOf g (node.inputs.getD 0 "") = some p1)
    (hp2 : producerOf g (node.inputs.getD 1 "") = some p2)
    (b1 b2 : GNode)
    (hb1 : get_fusible_backbone g cf fuel p1 = some b1)
    (hb2 : get_fusible_backbone g cf fuel p2 = some b2) :
    (node.name,
      if b1 = b2 then none
      else if (find_lowest_common_ancestor g fuel p1 p2).2.1 >
              (find_lowest_common_ancestor g fuel p1 p2).2.2
        then some (node.inputs.getD 0 "")
        else some (node.inputs.getD 1 ""))
      ∈ build_non_residual_input_map g cf fuel := by
  unfold build_non_residual_input_map
  apply List.mem_filterMap.mpr
  refine ⟨node, hmem, ?_⟩
  have hopb : (node.op == "Add") = true := by simp [hop]
  rw [hopb]
  simp only [if_true]
  have hbody : nonResidualInput g cf fuel node
      = if b1 = b2 then none
        else if (find_lowest_common_ancestor g fuel p1 p2).2.1 >
                (find_lowest_common_ancestor g fuel p1 p2).2.2
          then some (node.inputs.getD 0 "")
          else some (node.inputs.getD 1 "") := by
    unfold nonResidualInput
    rw [hconst, hp1, hp2]
    simp [hb1, hb2]
  rw [hbody]

/-- Witness for the amended C3 theorem on the concrete tie graph. -/
theorem build_non_residual_input_map_policy_witness :
    (add0 ∈ tieG.nodes ∧ add0.op = "Add" ∧ has_const_input tieG 4 add0 = false ∧
     producerOf tieG (add0.inputs.getD 0 "") = some conv1 ∧
     producerOf tieG (add0.inputs.getD 1 "") = some conv2 ∧
     get_fusible_backbone tieG 4 8 conv1 = some conv1 ∧
     get_fusible_backbone tieG 4 8 conv2 = some conv2) ∧
    (add0.name,
      if conv1 = conv2 then none
      else if (find_lowest_common_ancestor tieG 8 conv1 conv2).2.1 >
              (find_lowest_common_ancestor tieG 8 conv1 conv2).2.2
        then some (add0.inputs.getD 0 "")
        else some (add0.inputs.getD 1 ""))
      ∈ build_non_residual_input_map tieG 4 8 :=
  ⟨⟨by decide, by decide, by decide, by decide, by decide, by decide, by decide⟩,
   build_non_residual_input_map_policy tieG 4 8 add0 (by decide) (by decide) (by decide)
     conv1 conv2 (by decide) (by decide) conv1 conv2 (by decide) (by decide)⟩

/-! ### MHA partitions and the fp8/fp16 exclusion decision (claim C4) -/

def mha_chain_type : List String := ["MatMul", "Softmax", "MatMul"]

def maskadd_chain_type : List String := ["MatMul", "Add", "Softmax"]

def reshape_add_reshape_chain_type : List String :=
  ["MatMul", "Reshape", "Add", "Reshape", "Softmax"]

def mha_wild_card_types : List String :=
  ["Div", "Mul", "ConstMul", "Add", "BiasAdd", "Reshape", "Transpose", "Flatten", "Cast"]

/-- `find_mha_partitions`: for every `MatMul`, forward-match
`[MatMul, Softmax, MatMul]` with the wildcard set and keep exact 3-node
matches whose first and last nodes are `MatMul`. -/
def find_mha_partitions (g : GGraph) (cf fuel : Nat) : List (List GNode) :=
  g.nodes.filterMap (fun node =>
    if node.op == "MatMul" then
      let r := has_path_type g cf fuel node mha_chain_type true mha_wild_card_types []
      if r.1 && (r.2.length == 3)
          && ((r.2.getD 0 defaultGNode).op == "MatMul")
          && ((r.2.getD 2 defaultGNode).op == "MatMul") then some r.2
      else none
    else none)

/-- Whether the mask-add chain `[MatMul, Add, Softmax]` follows BMM1. -/
def mha_has_maskadd (g : GGraph) (cf fuel : Nat) (p : List GNode) : Bool :=
  (has_path_type g cf fuel (p.getD 0 defaultGNode) maskadd_chain_type true
    mha_wild_card_types []).1

/-- Whether the `[MatMul, Reshape, Add, Reshape, Softmax]` sub-pattern also
follows BMM1. -/
def mha_has_rar (g : GGraph) (cf fuel : Nat) (p : List GNode) : Bool :=
  (has_path_type g cf fuel (p.getD 0 defaultGNode) reshape_add_reshape_chain_type true
    mha_wild_card_types []).1

/-- `seq_len = bmm1_input.shape[-1]` of BMM1's second input, as reported by
the inference run (`shapeOf` stands for the external inference session). -/
def mha_seq_len (shapeOf : String → List Nat) (p : List GNode) : Nat :=
  (shapeOf ((p.getD 0 defaultGNode).inputs.getD 1 "")).getLastD 0

/-- `head_size = bmm1_input.shape[-2]` of BMM1's second input. -/
def mha_head_size (shapeOf : String → List Nat) (p : List GNode) : Nat :=
  (shapeOf ((p.getD 0 defaultGNode).inputs.getD 1 "")).dropLast.getLastD 0

/-- Per-partition exclusion decision of `find_nodes_from_mha_to_exclude`
(the negation of its `enable_mha_qdq` flag), translated branch by branch
from the source. -/
def mha_exclude_decision (g : GGraph) (cf fuel : Nat) (shapeOf : String → List Nat)
    (p : List GNode) : Bool :=
  if mha_has_maskadd g cf fuel p then
    if mha_has_rar g cf fuel p then true
    else if mha_head_size shapeOf p ≠ 64 ∨ mha_seq_len shapeOf p > 512 then true
    else false
  else if mha_head_size shapeOf p % 16 ≠ 0 ∨ mha_head_size shapeOf p > 128 then true
  else false

/-- The decision table exactly as the claim words it. -/
def mhaClaimTable (maskadd rar : Bool) (head_size seq_len : Nat) : Bool :=
  if maskadd ∧ rar then true
  else if maskadd ∧ (head_size ≠ 64 ∨ seq_len > 512) then true
  else if ¬maskadd ∧ (head_size % 16 ≠ 0 ∨ head_size > 128) then true
  else false

theorem mha_decision_eq_claim_table (g : GGraph) (cf fuel : Nat)
    (shapeOf : String → List Nat) (p : List GNode) :
    mha_exclude_decision g cf fuel shapeOf p
      = mhaClaimTable (mha_has_maskadd g cf fuel p) (mha_has_rar g cf fuel p)
          (mha_head_size shapeOf p) (mha_seq_len shapeOf p) := by
  unfold mha_exclude_decision mhaClaimTable
  by_cases hA : mha_head_size shapeOf p ≠ 64 ∨ mha_seq_len shapeOf p > 512 <;>
    by_cases hB : mha_head_size shapeOf p % 16 ≠ 0 ∨ mha_head_size shapeOf p > 128 <;>
      cases mha_has_maskadd g cf fuel p <;> cases mha_has_rar g cf fuel p <;>
        simp [hA, hB]

/-- `find_nodes_from_mha_to_exclude`, with the inference run abstracted into
the shape oracle `shapeOf` for BMM1's second input: if no MHA partition is
found, return `[]` (dropping even the caller's initial exclusions, as the
source does); with `disable_mha_qdq` both MatMuls of every partition are
appended; otherwise when `is_fp8fp16` the per-partition decision selects the
partitions whose two MatMuls are appended; the final `[*set(...)]`
de-duplicates. -/
def find_nodes_from_mha_to_exclude (g : GGraph) (cf fuel : Nat)
    (shapeOf : String → List Nat) (nodes_to_exclude : List String)
    (disable_mha_qdq is_fp8fp16 : Bool) : List String :=
  let parts := find_mha_partitions g cf fuel
  if parts.length = 0 then []
  else if disable_mha_qdq then
    (nodes_to_exclude ++
      (parts.map (fun p =>
        [(p.getD 0 defaultGNode).name, (p.getD 2 defaultGNode).name])).flatten).dedup
  else if is_fp8fp16 then
    (nodes_to_exclude ++
      ((parts.filter (fun p => mha_exclude_decision g cf fuel shapeOf p)).map
        (fun p =>
          [(p.getD 0 defaultGNode).name, (p.getD 2 defaultGNode).name])).flatten).dedup
  else nodes_to_exclude.dedup

/-- Claim C4: with `disable_mha_qdq = false` and `is_fp8fp16 = true`, a name
is excluded exactly when it was already excluded by the caller or it is one
of the two MatMuls of an MHA partition whose mask-add/reshape-add-reshape
pattern flags and inferred head size and sequence length satisfy the claim's
decision table. -/
theorem find_nodes_from_mha_to_exclude_decision_table (g : GGraph) (cf fuel : Nat)
    (shapeOf : String → List Nat) (init : List String) (nm : String)
    (hne : find_mha_partitions g cf fuel ≠ []) :
    nm ∈ find_nodes_from_mha_to_exclude g cf fuel shapeOf init false true ↔
      nm ∈ init ∨ ∃ p ∈ find_mha_partitions g cf fuel,
        mhaClaimTable (mha_has_maskadd g cf fuel p) (mha_has_rar g cf fuel p)
            (mha_head_size shapeOf p) (mha_seq_len shapeOf p) = true ∧
          (nm = (p.getD 0 defaultGNode).name ∨ nm = (p.getD 2 defaultGNode).name) := by
  unfold find_nodes_from_mha_to_exclude
  rw [if_neg (by simpa using hne)]
  simp only [Bool.false_eq_true, if_false, if_true]
  rw [List.mem_dedup, List.mem_append]
  apply or_congr Iff.rfl
  rw [List.mem_flatten]
  constructor
  · rintro ⟨l, hl, hnm⟩
    rcases List.mem_map.mp hl with ⟨p, hp, hleq⟩
    subst hleq
    rcases List.mem_filter.mp hp with ⟨hpmem, hdec⟩
    refine ⟨p, hpmem, ?_, ?_⟩
    · rw [← mha_decision_eq_claim_table]
      exact hdec
    · simpa using hnm
  · rintro ⟨p, hp, htbl, hnm⟩
    refine ⟨[(p.getD 0 defaultGNode).name, (p.getD 2 defaultGNode).name], ?_, ?_⟩
    · refine List.mem_map.mpr ⟨p, ?_, rfl⟩
      refine List.mem_filter.mpr ⟨hp, ?_⟩
      rw [mha_decision_eq_claim_table]
      exact htbl
    · simpa using hnm

/-- A concrete 3-node MHA chain used as the C4 witness graph. -/
def bmm1 : GNode := ⟨"bmm1", "MatMul", ["a", "b"], ["s1"]⟩

def smx : GNode := ⟨"smx", "Softmax", ["s1"], ["s2"]⟩

def bmm2 : GNode := ⟨"bmm2", "MatMul", ["s2", "v"], ["o"]⟩

def mhaG : GGraph := ⟨[bmm1, smx, bmm2], []⟩

/-- Witness for C4 on the concrete MHA graph with inferred shape [64, 512]. -/
theorem find_nodes_from_mha_to_exclude_decision_table_witness :
    find_mha_partitions mhaG 4 10 ≠ [] ∧
    (("bmm1" : String) ∈
        find_nodes_from_mha_to_exclude mhaG 4 10 (fun t => [64, 512]) [] false true ↔
      ("bmm1" : String) ∈ ([] : List String) ∨ ∃ p ∈ find_mha_partitions mhaG 4 10,
        mhaClaimTable (mha_has_maskadd mhaG 4 10 p) (mha_has_rar mhaG 4 10 p)
            (mha_head_size (fun t => [64, 512]) p) (mha_seq_len (fun t => [64, 512]) p) = true ∧
          ("bmm1" = (p.getD 0 defaultGNode).name ∨ "bmm1" = (p.getD 2 defaultGNode).name)) :=
  ⟨by decide,
   find_nodes_from_mha_to_exclude_decision_table mhaG 4 10 (fun t => [64, 512]) [] "bmm1"
     (by decide)⟩

/-! ### ONNX graph model for `quantize` / `quantize_rtn` (claims C1 and C9)

Tensors carry their constant payload when they are initializers (`gs.Constant`);
variables carry none.  The dtype bookkeeping of the source
(`gemm_io_type`, `_change_input_type`, `astype`) only relabels element types
and is not modelled. -/

inductive TData where
  | f1 (v : List ℚ)
  | f2 (m : List (List ℚ))
  | i2 (m : List (List Int))
deriving DecidableEq

structure OTensor where
  name : String
  data : Option TData
deriving DecidableEq

structure ONode where
  name : String
  op : String
  inputs : List OTensor
  outputs : List String
deriving DecidableEq

structure OGraph where
  nodes : List ONode
deriving DecidableEq

def producerONode (g : OGraph) (t : String) : Option ONode :=
  g.nodes.find? (fun n => n.outputs.contains t)

/-- The weight-collection loop of `quantize_rtn`: every `gs.Constant` input
of a `Gemm`/`MatMul` node whose array is not 1-D, keyed by tensor name. -/
def gemm_tensors_of (g : OGraph) : List (String × List (List ℚ)) :=
  ((g.nodes.filter (fun n => n.op == "Gemm" || n.op == "MatMul")).map (fun n =>
    n.inputs.filterMap (fun t =>
      match t.data with
      | some (TData.f2 m) => some (t.name, m)
      | _ => none))).flatten

/-- Modelled from the spec: `insert_dq_nodes` lives in
`modelopt.onnx.quantization.qdq_utils`, which is not among the provided
sources.  Spec section 4.4: replace each quantized weight's constant with a
Dequantize node consuming the quantized constant and its scale (the
`axis`/`block_size` attributes are not modelled); consumers of the weight
are rewired to read the DequantizeLinear output. -/
def insert_dq_nodes (g : OGraph)
    (entries : List (String × List (List Int) × List (List ℚ))) : OGraph :=
  let rewired := g.nodes.map (fun n =>
    { n with inputs := n.inputs.map (fun t =>
        if entries.any (fun e => e.1 == t.name) && t.data.isSome then
          ({ name := t.name ++ "_dq", data := none } : OTensor)
        else t) })
  ⟨rewired ++ entries.map (fun e =>
    ({ name := e.1 ++ "_DequantizeLinear",
       op := "DequantizeLinear",
       inputs := [⟨e.1, some (TData.i2 e.2.1)⟩, ⟨e.1 ++ "_scale", some (TData.f2 e.2.2)⟩],
       outputs := [e.1 ++ "_dq"] } : ONode))⟩

/-- Modelled from the spec: `insert_qdq_nodes` (also from `qdq_utils`, not
among the provided sources) emits full Quantize-plus-Dequantize node pairs
(spec section 4.3, non-`dq_only` RTN mode): the original float weight stays,
as the QuantizeLinear input, and the DequantizeLinear consumes the
QuantizeLinear output variable — no pre-quantized integer weight exists. -/
def insert_qdq_nodes (g : OGraph)
    (entries : List (String × List (List ℚ) × List (List ℚ))) : OGraph :=
  let rewired := g.nodes.map (fun n =>
    { n with inputs := n.inputs.map (fun t =>
        if entries.any (fun e => e.1 == t.name) && t.data.isSome then
          ({ name := t.name ++ "_dq", data := none } : OTensor)
        else t) })
  ⟨rewired ++ (entries.map (fun e =>
    [({ name := e.1 ++ "_QuantizeLinear",
        op := "QuantizeLinear",
        inputs := [⟨e.1, some (TData.f2 e.2.1)⟩, ⟨e.1 ++ "_scale", some (TData.f2 e.2.2)⟩],
        outputs := [e.1 ++ "_q"] } : ONode),
     ({ name := e.1 ++ "_DequantizeLinear",
        op := "DequantizeLinear",
        inputs := [⟨e.1 ++ "_q", none⟩, ⟨e.1 ++ "_scale", some (TData.f2 e.2.2)⟩],
        outputs := [e.1 ++ "_dq"] } : ONode)])).flatten⟩

/-- `quantize_rtn(onnx_model, gemm_io_type, dq_only)`: compute per-weight
scales with `find_scales(w, BLOCK_SIZE)` (alpha defaults to 1); with
`dq_only` additionally quantize the weights with `rtn` and insert DQ nodes,
otherwise insert Q/DQ pairs over the original float weights. -/
def quantize_rtn (g : OGraph) (dq_only : Bool) : OGraph :=
  let gemm_tensors := gemm_tensors_of g
  if dq_only then
    insert_dq_nodes g (gemm_tensors.map (fun e =>
      (e.1, rtn e.2 (find_scales e.2 BLOCK_SIZE 1) BLOCK_SIZE, find_scales e.2 BLOCK_SIZE 1)))
  else
    insert_qdq_nodes g (gemm_tensors.map (fun e => (e.1, e.2, find_scales e.2 BLOCK_SIZE 1)))

/-- `"dq" in calibration_method`, on the character list of the string. -/
def starts_with_dq : List Char → Bool
  | 'd' :: 'q' :: _ => true
  | _ => false

def contains_dq : List Char → Bool
  | [] => false
  | c :: rest => starts_with_dq (c :: rest) || contains_dq rest

def substring_dq (s : String) : Bool := contains_dq s.data

/-- `quantize(onnx_path, calibration_method, ...)` of `int4.py`: dispatch on
the calibration method; the AWQ branches require an inference session and a
data reader and are passed in as the external collaborators `awq_lite_mode`
and `awq_clip_mode`; unsupported names raise
`RuntimeError(f"Unsupported calibration method: '{calibration_method}'")`
without the graph having been touched. -/
def quantize (awq_lite_mode awq_clip_mode : OGraph → OGraph)
    (calibration_method : String) (g : OGraph) : Except String OGraph :=
  if calibration_method ∈ ["rtn", "rtn_dq", "rtn_trt", "rtn_trt_dq"] then
    .ok (quantize_rtn g (substring_dq calibration_method))
  else if calibration_method ∈ ["awq_lite"] then
    .ok (awq_lite_mode g)
  else if calibration_method ∈ ["awq_clip", "awq_clip_trt"] then
    .ok (awq_clip_mode g)
  else
    .error ("Unsupported calibration method: '" ++ calibration_method ++ "'")

/-! ### Claim C9: unsupported calibration methods fail fast -/

/-- Claim C9: for every calibration method outside the recognized set,
`quantize` returns the descriptive error naming the method — for every
input graph and any behavior of the AWQ collaborators, i.e. before any
graph mutation has happened. -/
theorem quantize_unsupported_method_errors (awq_lite_mode awq_clip_mode : OGraph → OGraph)
    (m : String) (g : OGraph)
    (hm : m ∉ (["rtn", "rtn_dq", "rtn_trt", "rtn_trt_dq",
                "awq_lite", "awq_clip", "awq_clip_trt"] : List String)) :
    quantize awq_lite_mode awq_clip_mode m g
      = .error ("Unsupported calibration method: '" ++ m ++ "'") := by
  have h1 : m ∉ (["rtn", "rtn_dq", "rtn_trt", "rtn_trt_dq"] : List String) := by
    intro h
    apply hm
    simp only [List.mem_cons, List.not_mem_nil, or_false] at h ⊢
    tauto
  have h2 : m ∉ (["awq_lite"] : List String) := by
    intro h
    apply hm
    simp only [List.mem_cons, List.not_mem_nil, or_false] at h ⊢
    tauto
  have h3 : m ∉ (["awq_clip", "awq_clip_trt"] : List String) := by
    intro h
    apply hm
    simp only [List.mem_cons, List.not_mem_nil, or_false] at h ⊢
    tauto
  unfold quantize
  rw [if_neg h1, if_neg h2, if_neg h3]

/-- Witness for C9 at a concrete unsupported method name. -/
theorem quantize_unsupported_method_errors_witness :
    (("int8_rtn" : String) ∉ (["rtn", "rtn_dq", "rtn_trt", "rtn_trt_dq",
        "awq_lite", "awq_clip", "awq_clip_trt"] : List String)) ∧
    quantize id id "int8_rtn" ⟨[]⟩
      = .error ("Unsupported calibration method: 'int8_rtn'") :=
  ⟨by decide,
   quantize_unsupported_method_errors id id "int8_rtn" ⟨[]⟩ (by decide)⟩

/-! ### Claim C1: the RTN example scenario -/

/-- The weight payload the claim expects: an 8-bit-range integer array of
shape `[256, 64]`. -/
def int4_payload_ok : Option TData → Prop
  | some (TData.i2 q) =>
      q.length = 256 ∧ (∀ r ∈ q, r.length = 64) ∧ ∀ r ∈ q, ∀ v ∈ r, -128 ≤ v ∧ v ≤ 127
  | _ => False

instance int4_payload_ok_dec : (d : Option TData) → Decidable (int4_payload_ok d)
  | some (TData.i2 q) =>
      inferInstanceAs (Decidable
        (q.length = 256 ∧ (∀ r ∈ q, r.length = 64) ∧ ∀ r ∈ q, ∀ v ∈ r, -128 ≤ v ∧ v ≤ 127))
  | some (TData.f1 _) => isFalse (fun h => h)
  | some (TData.f2 _) => isFalse (fun h => h)
  | none => isFalse (fun h => h)

/-- The scale payload the claim expects: a float array of shape `[2, 64]`. -/
def scale_payload_ok : Option TData → Prop
  | some (TData.f2 s) => s.length = 2 ∧ ∀ r ∈ s, r.length = 64
  | _ => False

instance scale_payload_ok_dec : (d : Option TData) → Decidable (scale_payload_ok d)
  | some (TData.f2 s) => inferInstanceAs (Decidable (s.length = 2 ∧ ∀ r ∈ s, r.length = 64))
  | some (TData.f1 _) => isFalse (fun h => h)
  | some (TData.i2 _) => isFalse (fun h => h)
  | none => isFalse (fun h => h)

/-- The claim's produced-graph property: the named MatMul's weight input is
replaced by (the output of) a DequantizeLinear node whose first input is an
8-bit-range integer constant of shape `[256, 64]` and whose second input is
a scale constant of shape `[2, 64]`. -/
def weight_replaced_by_int4_dq (g : OGraph) (mmName : String) : Prop :=
  ∃ mm ∈ g.nodes, mm.name = mmName ∧
    ∃ dq ∈ g.nodes, dq.op = "DequantizeLinear" ∧
      (mm.inputs.getD 1 ⟨"", none⟩).name ∈ dq.outputs ∧
      int4_payload_ok (dq.inputs.getD 0 ⟨"", none⟩).data ∧
      scale_payload_ok (dq.inputs.getD 1 ⟨"", none⟩).data

instance weight_replaced_dec (g : OGraph) (mmName : String) :
    Decidable (weight_replaced_by_int4_dq g mmName) := by
  unfold weight_replaced_by_int4_dq
  exact inferInstance

/-- The claim's 2-node graph `[MatMul(name="mm1", weight W)] -> [Softmax]`. -/
def mmGraph (W : List (List ℚ)) : OGraph :=
  ⟨[⟨"mm1", "MatMul", [⟨"x", none⟩, ⟨"W", some (TData.f2 W)⟩], ["mm1_out"]⟩,
    ⟨"softmax_0", "Softmax", [⟨"mm1_out", none⟩], ["sm_out"]⟩]⟩

/-- The concrete all-ones 256×64 weight used in the counterexample. -/
def W0 : List (List ℚ) := List.replicate 256 (List.replicate 64 1)

/-- Counterexample to claim C1 as stated: with `calibration_method = "rtn"`
(`dq_only = "dq" in "rtn" = False`), `quantize` inserts a
QuantizeLinear/DequantizeLinear pair over the original float weight — the
DequantizeLinear input is the QuantizeLinear output variable, and no integer
weight array exists anywhere in the produced graph, so the claimed property
fails on the exact 2-node graph of the claim. -/
theorem quantize_rtn_mode_keeps_float_weight_cex :
    quantize id id "rtn" (mmGraph W0) = .ok (quantize_rtn (mmGraph W0) false) ∧
    ¬ weight_replaced_by_int4_dq (quantize_rtn (mmGraph W0) false) "mm1" := by
  constructor
  · unfold quantize
    rw [if_pos (by decide : ("rtn" : String) ∈ ["rtn", "rtn_dq", "rtn_trt", "rtn_trt_dq"])]
    rw [show substring_dq "rtn" = false from by decide]
  · decide

/-! Shape lemmas for `find_scales` and `rtn` at weight shape 256×64 and
block size 128. -/

theorem flatten_length_uniform {α : Type} {m : List (List α)} {C : Nat}
    (h : ∀ r ∈ m, r.length = C) : m.flatten.length = m.length * C := by
  induction m with
  | nil => simp
  | cons a t ih =>
    simp only [List.flatten_cons, List.length_append, List.length_cons]
    rw [h a (by simp), ih (fun r hr => h r (by simp [hr]))]
    ring

theorem chunksGo_shape {α : Type} (B : Nat) (hB : 0 < B) :
    ∀ (fuel : Nat) (l : List α), l.length ≤ fuel → B ∣ l.length →
      (chunksGo B fuel l).length = l.length / B ∧ ∀ c ∈ chunksGo B fuel l, c.length = B := by
  intro fuel
  induction fuel with
  | zero =>
    intro l hlen hdvd
    have hnil : l = [] := List.eq_nil_of_length_eq_zero (Nat.le_zero.mp hlen)
    subst hnil
    simp [chunksGo]
  | succ n ih =>
    intro l hlen hdvd
    cases l with
    | nil => simp [chunksGo]
    | cons a t =>
      rcases hdvd with ⟨k, hk⟩
      have hkpos : 0 < k := by
        rcases Nat.eq_zero_or_pos k with hk0 | hk0
        · subst hk0
          simp at hk
        · exact hk0
      have hBle : B ≤ (a :: t).length := by
        rw [hk]
        calc B = B * 1 := (Nat.mul_one B).symm
          _ ≤ B * k := Nat.mul_le_mul_left B hkpos
      have hmul : B * (k - 1) = B * k - B := by
        cases k with
        | zero => simp at hkpos
        | succ k' => simp [Nat.mul_succ]
      have hdroplen : ((a :: t).drop B).length = B * (k - 1) := by
        rw [List.length_drop, hk, hmul]
      have hlen' : ((a :: t).drop B).length ≤ n := by
        rw [List.length_drop]
        omega
      have hdvd' : B ∣ ((a :: t).drop B).length := ⟨k - 1, hdroplen⟩
      have IH := ih ((a :: t).drop B) hlen' hdvd'
      constructor
      · simp only [chunksGo, List.length_cons]
        have hl : t.length + 1 = B * k := by simpa using hk
        rw [IH.1, hdroplen, Nat.mul_div_cancel_left _ hB, hl, Nat.mul_div_cancel_left _ hB]
        omega
      · intro c hc
        simp only [chunksGo, List.mem_cons] at hc
        rcases hc with hc | hc
        · subst hc
          rw [List.length_take]
          exact Nat.min_eq_left hBle
        · exact IH.2 c hc

theorem chunks_shape {α : Type} {B : Nat} (hB : 0 < B) {l : List α} (hdvd : B ∣ l.length) :
    (chunks B l).length = l.length / B ∧ ∀ c ∈ chunks B l, c.length = B :=
  chunksGo_shape B hB l.length l (Nat.le_refl _) hdvd

theorem headD_mem {α : Type} {l : List α} (h : l ≠ []) (d : α) : l.headD d ∈ l := by
  cases l with
  | nil => exact absurd rfl h
  | cons a t => simp

theorem transposeM_shape {m : List (List ℚ)} {R C : Nat} (hR : m.length = R)
    (hC : ∀ r ∈ m, r.length = C) (hne : m ≠ []) :
    (transposeM m).length = C ∧ ∀ row ∈ transposeM m, row.length = R := by
  have hcols : cols m = C := hC (m.headD []) (headD_mem hne [])
  constructor
  · simp [transposeM, hcols]
  · intro row hrow
    rcases List.mem_map.mp hrow with ⟨j, _, hroweq⟩
    subst hroweq
    simp [hR]

theorem padM_nop {m : List (List ℚ)} {B : Nat} (h : m.length % B = 0) : padM m B = m := by
  unfold padM _pad
  rw [if_pos h]

theorem mem_of_mem_flatten_replicate {α : Type} {rs : α} {s : List α} {nb : Nat}
    (h : rs ∈ (s.map (List.replicate nb)).flatten) : rs ∈ s := by
  rcases List.mem_flatten.mp h with ⟨l, hl, hin⟩
  rcases List.mem_map.mp hl with ⟨srow, hsrow, hleq⟩
  subst hleq
  rw [List.eq_of_mem_replicate hin]
  exact hsrow

theorem find_scales_shape_256 (W : List (List ℚ)) (h1 : W.length = 256)
    (h2 : ∀ r ∈ W, r.length = 64) :
    (find_scales W 128 1).length = 2 ∧ ∀ r ∈ find_scales W 128 1, r.length = 64 := by
  have hWne : W ≠ [] := by
    intro h
    rw [h] at h1
    simp at h1
  have hpad : padM W 128 = W := padM_nop (by rw [h1])
  have htr := transposeM_shape (R := 256) (C := 64) h1 h2 hWne
  have hflat : (transposeM W).flatten.length = 16384 := by
    rw [flatten_length_uniform htr.2, htr.1]
  have hch := chunks_shape (B := 128) (by norm_num) (l := (transposeM W).flatten)
    (by rw [hflat]; norm_num)
  have hchlen : (chunks 128 (transposeM W).flatten).length = 128 := by
    rw [hch.1, hflat]
  have htrne : transposeM W ≠ [] := by
    intro h
    rw [h] at htr
    simp at htr
  have hheadD : ((transposeM W).headD []).length = 256 :=
    htr.2 _ (headD_mem htrne [])
  have hslen : (((chunks 128 (transposeM W).flatten).map blockAmax).map
      (fun a => a * 1 / INT4_SCALE)).length = 128 := by
    simp [hchlen]
  have hdvd2 : 2 ∣ (((chunks 128 (transposeM W).flatten).map blockAmax).map
      (fun a => a * 1 / INT4_SCALE)).length := by
    rw [hslen]
    norm_num
  have hch2 := chunks_shape (B := 2) (by norm_num) hdvd2
  have hch2len : (chunks 2 (((chunks 128 (transposeM W).flatten).map blockAmax).map
      (fun a => a * 1 / INT4_SCALE))).length = 64 := by
    rw [hch2.1, hslen]
  have hch2ne : chunks 2 (((chunks 128 (transposeM W).flatten).map blockAmax).map
      (fun a => a * 1 / INT4_SCALE)) ≠ [] := by
    intro h
    rw [h] at hch2len
    simp at hch2len
  have hfinal := transposeM_shape (R := 64) (C := 2) hch2len hch2.2 hch2ne
  have hbody : find_scales W 128 1
      = transposeM (chunks 2 (((chunks 128 (transposeM W).flatten).map blockAmax).map
          (fun a => a * 1 / INT4_SCALE))) := by
    simp only [find_scales]
    rw [hpad, hheadD]
  rw [hbody]
  exact hfinal

theorem rtn_shape_256 (W s : List (List ℚ)) (h1 : W.length = 256)
    (h2 : ∀ r ∈ W, r.length = 64) (hs1 : s.length = 2) (hs2 : ∀ r ∈ s, r.length = 64) :
    (rtn W s 128).length = 256 ∧ ∀ r ∈ rtn W s 128, r.length = 64 := by
  have hpad : padM W 128 = W := padM_nop (by rw [h1])
  have hsr : ∀ rrow ∈ (s.map (List.replicate (W.length / s.length))).flatten, rrow.length = 64 :=
    fun rrow hrow => hs2 rrow (mem_of_mem_flatten_replicate hrow)
  have hsrlen : (s.map (List.replicate (W.length / s.length))).flatten.length = 256 := by
    have : ∀ l ∈ s.map (List.replicate (W.length / s.length)),
        l.length = W.length / s.length := by
      intro l hl
      rcases List.mem_map.mp hl with ⟨srow, _, hleq⟩
      subst hleq
      simp
    rw [flatten_length_uniform this, List.length_map, hs1, h1]
  have hq : (List.zipWith
      (fun rw rs => List.zipWith
        (fun a b => intClip INT4_MIN INT4_MAX (roundHalfEven (a / b))) rw rs)
      W ((s.map (List.replicate (W.length / s.length))).flatten)).length = 256 := by
    rw [List.length_zipWith, hsrlen, h1]
    simp
  have hbody : rtn W s 128
      = _depad (List.zipWith
          (fun rw rs => List.zipWith
            (fun a b => intClip INT4_MIN INT4_MAX (roundHalfEven (a / b))) rw rs)
          W ((s.map (List.replicate (W.length / s.length))).flatten)) W.length := by
    simp only [rtn]
    rw [hpad]
  have hdepad : _depad (List.zipWith
      (fun rw rs => List.zipWith
        (fun a b => intClip INT4_MIN INT4_MAX (roundHalfEven (a / b))) rw rs)
      W ((s.map (List.replicate (W.length / s.length))).flatten)) W.length
      = List.zipWith
          (fun rw rs => List.zipWith
            (fun a b => intClip INT4_MIN INT4_MAX (roundHalfEven (a / b))) rw rs)
          W ((s.map (List.replicate (W.length / s.length))).flatten) := by
    unfold _depad
    rw [if_pos (by rw [hq, h1])]
  rw [hbody, hdepad]
  refine ⟨by rw [hq], ?_⟩
  intro r hr
  rcases exists_of_mem_zipWith hr with ⟨rw', hrw, rs, hrs, hreq⟩
  subst hreq
  rw [List.length_zipWith, h2 rw' hrw, hsr rs hrs]
  simp

/-- Claim C1, amended: quantizing the 2-node graph
`[MatMul(name="mm1", weight shape [256, 64])] -> [Softmax]` via `quantize`
with `calibration_method = "rtn_dq"` (the Dequantize-only RTN mode; plain
`"rtn"` emits a Quantize/Dequantize pair keeping the float weight, see the
counterexample) and block size 128 produces a graph in which `mm1`'s weight
initializer is replaced by a DequantizeLinear node whose input is an
8-bit-range integer array of shape `[256, 64]` and whose scale array has
shape `[2, 64]`. -/
theorem quantize_rtn_dq_replaces_weight_with_int4_dq (W : List (List ℚ))
    (h1 : W.length = 256) (h2 : ∀ r ∈ W, r.length = 64) :
    quantize id id "rtn_dq" (mmGraph W) = .ok (quantize_rtn (mmGraph W) true) ∧
    weight_replaced_by_int4_dq (quantize_rtn (mmGraph W) true) "mm1" := by
  have hfs := find_scales_shape_256 W h1 h2
  have hq := rtn_shape_256 W (find_scales W 128 1) h1 h2 hfs.1 hfs.2
  have hresult : quantize_rtn (mmGraph W) true =
      ⟨[⟨"mm1", "MatMul", [⟨"x", none⟩, ⟨"W_dq", none⟩], ["mm1_out"]⟩,
        ⟨"softmax_0", "Softmax", [⟨"mm1_out", none⟩], ["sm_out"]⟩,
        ⟨"W_DequantizeLinear", "DequantizeLinear",
          [⟨"W", some (TData.i2 (rtn W (find_scales W BLOCK_SIZE 1) BLOCK_SIZE))⟩,
           ⟨"W_scale", some (TData.f2 (find_scales W BLOCK_SIZE 1))⟩],
          ["W_dq"]⟩]⟩ := rfl
  constructor
  · unfold quantize
    rw [if_pos (by decide :
      ("rtn_dq" : String) ∈ ["rtn", "rtn_dq", "rtn_trt", "rtn_trt_dq"])]
    rw [show substring_dq "rtn_dq" = true from by decide]
  · rw [hresult]
    refine ⟨⟨"mm1", "MatMul", [⟨"x", none⟩, ⟨"W_dq", none⟩], ["mm1_out"]⟩,
      by simp, rfl,
      ⟨"W_DequantizeLinear", "DequantizeLinear",
        [⟨"W", some (TData.i2 (rtn W (find_scales W BLOCK_SIZE 1) BLOCK_SIZE))⟩,
         ⟨"W_scale", some (TData.f2 (find_scales W BLOCK_SIZE 1))⟩],
        ["W_dq"]⟩,
      by simp, rfl, by simp, ?_, ?_⟩
    · show int4_payload_ok (some (TData.i2 (rtn W (find_scales W 128 1) 128)))
      refine ⟨hq.1, hq.2, ?_⟩
      intro r hr v hv
      have hb := rtn_entry_bounds r hr v hv
      have hmin : INT4_MIN = -8 := by decide
      have hmax : INT4_MAX = 7 := by decide
      rw [hmin] at hb
      rw [hmax] at hb
      omega
    · show scale_payload_ok (some (TData.f2 (find_scales W 128 1)))
      exact ⟨hfs.1, hfs.2⟩

/-- Witness for the amended C1 theorem at the concrete all-ones weight. -/
theorem quantize_rtn_dq_replaces_weight_with_int4_dq_witness :
    (W0.length = 256 ∧ ∀ r ∈ W0, r.length = 64) ∧
    (quantize id id "rtn_dq" (mmGraph W0) = .ok (quantize_rtn (mmGraph W0) true) ∧
     weight_replaced_by_int4_dq (quantize_rtn (mmGraph W0) true) "mm1") :=
  ⟨⟨by simp only [W0, List.length_replicate],
    by
      intro r hr
      simp only [W0] at hr
      rw [List.eq_of_mem_replicate hr]
      simp only [List.length_replicate]⟩,
   quantize_rtn_dq_replaces_weight_with_int4_dq W0 (by simp only [W0, List.length_replicate])
     (by
       intro r hr
       simp only [W0] at hr
       rw [List.eq_of_mem_replicate hr]
       simp only [List.length_replicate])⟩

end Modelopt
